import Mathlib

/-!
Shallow embedding of the `sandbox-ascii` character-grid rendering engine
(`renderer.py`, `shapes.py`, `effects.py`) and proofs about it.

Python integers are modelled as `Int`.  `range(n)` over a possibly
non-positive bound is modelled through `Int.toNat` (empty for `n ≤ 0`),
matching Python's empty range.  The screen buffer (a Python
`list[list[str]]` of single-character strings) is a `List (List Char)`.
`effects.slide_position`, whose Python body uses float division, is
modelled in exact rational arithmetic (`ℚ`); Python's `int(...)`
conversion truncates toward zero and is modelled by `ratTrunc`.
-/

set_option autoImplicit false

namespace SandboxAscii

/-- `Screen.__init__` stores `width` and `height` as given (no validation
occurs anywhere in `renderer.py`), plus the 2D character buffer. -/
structure Screen where
  width : Int
  height : Int
  buffer : List (List Char)
  deriving Repr, DecidableEq

/-- `Screen._create_buffer`:
`[[' ' for _ in range(self.width)] for _ in range(self.height)]`. -/
def createBuffer (width height : Int) : List (List Char) :=
  List.replicate height.toNat (List.replicate width.toNat ' ')

namespace Screen

/-- `Screen.__init__(width, height)`: store the dimensions unconditionally
and build the buffer.  There is no dimension check in the source. -/
def init (width height : Int) : Screen :=
  { width := width, height := height, buffer := createBuffer width height }

/-- `Screen.clear`: rebuild the buffer from the stored dimensions. -/
def clear (s : Screen) : Screen :=
  { s with buffer := createBuffer s.width s.height }

/-- Bounds test `0 <= x < self.width and 0 <= y < self.height`. -/
def inBounds (s : Screen) (x y : Int) : Prop :=
  0 ≤ x ∧ x < s.width ∧ 0 ≤ y ∧ y < s.height

instance (s : Screen) (x y : Int) : Decidable (s.inBounds x y) := by
  unfold inBounds; infer_instance

/-- `Screen.set_pixel`: guarded single-cell write `self.buffer[y][x] = char`. -/
def set_pixel (s : Screen) (x y : Int) (char : Char) : Screen :=
  if s.inBounds x y then
    { s with buffer :=
        s.buffer.set y.toNat ((s.buffer.getD y.toNat []).set x.toNat char) }
  else s

/-- `Screen.get_pixel`: guarded single-cell read, space when out of bounds. -/
def get_pixel (s : Screen) (x y : Int) : Char :=
  if s.inBounds x y then (s.buffer.getD y.toNat []).getD x.toNat ' '
  else ' '

/-- The list of lines produced by `Screen.render` before joining:
border, then each buffer row framed by `|`, then the border again. -/
def renderLines (s : Screen) : List String :=
  let lines := s.buffer.map fun row => String.mk row
  let border := "+" ++ String.mk (List.replicate s.width.toNat '-') ++ "+"
  [border] ++ (lines.map fun line => "|" ++ line ++ "|") ++ [border]

/-- `Screen.render`: `'\n'.join(framed)`. -/
def render (s : Screen) : String :=
  String.intercalate "\n" s.renderLines

/-- Shape invariant of a screen: the buffer has `height` rows and every
row has `width` cells (spec §3: `cells.length == height`, every row
length == `width`). -/
def WF (s : Screen) : Prop :=
  s.buffer.length = s.height.toNat ∧ ∀ row ∈ s.buffer, row.length = s.width.toNat

instance (s : Screen) : Decidable s.WF := by
  unfold WF; infer_instance

end Screen

/-- `range(n)` for a Python int `n`, as a list of `Int` (empty for `n ≤ 0`). -/
def intRange (n : Int) : List Int :=
  (List.range n.toNat).map Int.ofNat

/-- `shapes.draw_box`: top/bottom edges, then left/right edges. -/
def draw_box (screen : Screen) (x y width height : Int) (char : Char) : Screen :=
  let s1 := (intRange width).foldl
    (fun s i => (s.set_pixel (x + i) y char).set_pixel (x + i) (y + height - 1) char)
    screen
  (intRange height).foldl
    (fun s j => (s.set_pixel x (y + j) char).set_pixel (x + width - 1) (y + j) char)
    s1

/-- `shapes.draw_filled_box`: every cell of the rectangle. -/
def draw_filled_box (screen : Screen) (x y width height : Int) (char : Char) : Screen :=
  (intRange height).foldl
    (fun s j => (intRange width).foldl
      (fun t i => t.set_pixel (x + i) (y + j) char) s)
    screen

/-- One pass of the `while True` loop of `shapes.draw_line`, returning the
list of plotted cells.  `fuel` bounds the number of iterations; `none`
means the fuel ran out before the loop hit its `break`. -/
def lineLoop (x2 y2 dx dy sx sy : Int) :
    Nat → Int → Int → Int → Option (List (Int × Int))
  | 0, _, _, _ => none
  | fuel + 1, x1, y1, err =>
    if x1 = x2 ∧ y1 = y2 then some [(x1, y1)]
    else
      let e2 := 2 * err
      let err1 := if e2 > -dy then err - dy else err
      let x1n := if e2 > -dy then x1 + sx else x1
      let err2 := if e2 < dx then err1 + dx else err1
      let y1n := if e2 < dx then y1 + sy else y1
      (lineLoop x2 y2 dx dy sx sy fuel x1n y1n err2).map fun l => (x1, y1) :: l

/-- `shapes.draw_line` set-up followed by the loop, with the given fuel. -/
def lineRun (x1 y1 x2 y2 : Int) (fuel : Nat) : Option (List (Int × Int)) :=
  let dx := |x2 - x1|
  let dy := |y2 - y1|
  let sx : Int := if x1 < x2 then 1 else -1
  let sy : Int := if y1 < y2 then 1 else -1
  lineLoop x2 y2 dx dy sx sy fuel x1 y1 (dx - dy)

/-- The cells plotted by `shapes.draw_line`, with fuel `dx + dy + 1`
(proved sufficient in `lineRun_terminates`). -/
def lineCells (x1 y1 x2 y2 : Int) : List (Int × Int) :=
  (lineRun x1 y1 x2 y2 ((|x2 - x1| + |y2 - y1|).toNat + 1)).getD []

/-- `shapes.draw_line`: plot every cell of the Bresenham walk. -/
def draw_line (screen : Screen) (x1 y1 x2 y2 : Int) (char : Char) : Screen :=
  (lineCells x1 y1 x2 y2).foldl (fun s p => s.set_pixel p.1 p.2 char) screen

/-- The eight symmetric writes of one iteration of `shapes.draw_circle`. -/
def circleOctet (cx cy x y : Int) : List (Int × Int) :=
  [(cx + x, cy + y), (cx + y, cy + x), (cx - y, cy + x), (cx - x, cy + y),
   (cx - x, cy - y), (cx - y, cy - x), (cx + y, cy - x), (cx + x, cy - y)]

/-- The `while x >= y` loop of `shapes.draw_circle`, as the list of
plotted cells.  `fuel` bounds the number of iterations (`none` when it
runs out); `y` grows by one each iteration while `x` never grows, so
fuel `x + 1 - y + 1` suffices (`circleLoop_some`). -/
def circleLoop (cx cy : Int) : Nat → Int → Int → Int → Option (List (Int × Int))
  | 0, _, _, _ => none
  | fuel + 1, x, y, err =>
    if x ≥ y then
      let y1 := y + 1
      let err1 := err + 1 + 2 * y1
      let x1 := if 2 * (err1 - x) + 1 > 0 then x - 1 else x
      let err2 := if 2 * (err1 - x) + 1 > 0 then err1 + 1 - 2 * x1 else err1
      (circleLoop cx cy fuel x1 y1 err2).map fun l => circleOctet cx cy x y ++ l
    else some []

/-- The cells plotted by `shapes.draw_circle`, with fuel `radius + 2`
(proved sufficient in `circleLoop_some`). -/
def circleCells (cx cy radius : Int) : List (Int × Int) :=
  (circleLoop cx cy ((radius + 1).toNat + 1) radius 0 0).getD []

/-- `shapes.draw_circle`: plot every cell of the midpoint-circle walk. -/
def draw_circle (screen : Screen) (cx cy radius : Int) (char : Char) : Screen :=
  (circleCells cx cy radius).foldl (fun s p => s.set_pixel p.1 p.2 char) screen

/-- `shapes.draw_text`: `for i, char in enumerate(text): set_pixel(x + i, y, char)`,
written as a recursion that advances `x` across the character list. -/
def drawTextAux (screen : Screen) (x y : Int) : List Char → Screen
  | [] => screen
  | ch :: rest => drawTextAux (screen.set_pixel x y ch) (x + 1) y rest

/-- `shapes.draw_text` on a string. -/
def draw_text (screen : Screen) (x y : Int) (text : String) : Screen :=
  drawTextAux screen x y text.data

/-- Truncation of a rational toward zero: Python's `int(...)` on a float. -/
def ratTrunc (q : ℚ) : Int :=
  if 0 ≤ q then ⌊q⌋ else -⌊-q⌋

/-- `effects.slide_position`, in exact rational arithmetic:
`progress = min(frame / duration, 1.0)`;
`int(start + (end - start) * progress)`. -/
def slide_position (frame start endv duration : Int) : Int :=
  let progress : ℚ := min ((frame : ℚ) / (duration : ℚ)) 1
  ratTrunc ((start : ℚ) + ((endv : ℚ) - (start : ℚ)) * progress)

/-- The border line of `Screen.render`: `'+' + '-' * width + '+'`. -/
def borderLine (w : Int) : String :=
  "+" ++ String.mk (List.replicate w.toNat '-') ++ "+"

/-- A framed all-spaces row, as rendered for a blank buffer. -/
def blankLine (w : Int) : String :=
  "|" ++ String.mk (List.replicate w.toNat ' ') ++ "|"

/-- An error value for the spec's `create`, see `create_spec`. -/
inductive CreateError where
  | InvalidDimension
  deriving DecidableEq, Repr

/-- Modelled from the spec (§4.1) for comparison with the source:
"`create(width, height)` → buffer filled with spaces. Fails with
`InvalidDimension` if width ≤ 0 or height ≤ 0."  The source's
`Screen.__init__` (embedded as `Screen.init`) contains no such check. -/
def create_spec (w h : Int) : Except CreateError Screen :=
  if 0 < w ∧ 0 < h then Except.ok (Screen.init w h)
  else Except.error CreateError.InvalidDimension

/-! ### Basic lemmas about `set_pixel` and `get_pixel` -/

namespace Screen

theorem set_pixel_width (s : Screen) (x y : Int) (c : Char) :
    (s.set_pixel x y c).width = s.width := by
  unfold set_pixel; split <;> rfl

theorem set_pixel_height (s : Screen) (x y : Int) (c : Char) :
    (s.set_pixel x y c).height = s.height := by
  unfold set_pixel; split <;> rfl

theorem set_pixel_inBounds_iff (s : Screen) (x y u v : Int) (c : Char) :
    (s.set_pixel x y c).inBounds u v ↔ s.inBounds u v := by
  unfold inBounds
  rw [set_pixel_width, set_pixel_height]

theorem set_pixel_of_not_inBounds (s : Screen) (x y : Int) (c : Char)
    (h : ¬ s.inBounds x y) : s.set_pixel x y c = s := by
  unfold set_pixel; rw [if_neg h]

theorem get_pixel_of_not_inBounds (s : Screen) (x y : Int)
    (h : ¬ s.inBounds x y) : s.get_pixel x y = ' ' := by
  unfold get_pixel; rw [if_neg h]

theorem set_pixel_buffer_length (s : Screen) (x y : Int) (c : Char) :
    (s.set_pixel x y c).buffer.length = s.buffer.length := by
  unfold set_pixel; split
  · simp
  · rfl

/-- The row that a well-formed screen's `get_pixel` would read has length
`width`. -/
theorem WF.row_length {s : Screen} (hwf : s.WF) {n : ℕ}
    (hn : n < s.buffer.length) : (s.buffer.getD n []).length = s.width.toNat := by
  rw [List.getD_eq_getElem _ _ hn]
  exact hwf.2 _ (List.getElem_mem hn)

theorem get_pixel_set_pixel_same (s : Screen) (x y : Int) (c : Char)
    (hwf : s.WF) (h : s.inBounds x y) :
    (s.set_pixel x y c).get_pixel x y = c := by
  obtain ⟨hx0, hxw, hy0, hyh⟩ := h
  have hylen : y.toNat < s.buffer.length := by rw [hwf.1]; omega
  have hrow : (s.buffer.getD y.toNat []).length = s.width.toNat :=
    hwf.row_length hylen
  unfold set_pixel
  rw [if_pos ⟨hx0, hxw, hy0, hyh⟩]
  unfold get_pixel
  split
  · have hylen' : y.toNat <
        (s.buffer.set y.toNat ((s.buffer.getD y.toNat []).set x.toNat c)).length := by
      rw [List.length_set]; exact hylen
    rw [List.getD_eq_getElem _ _ hylen', List.getElem_set_self]
    have hxlen : x.toNat < ((s.buffer.getD y.toNat []).set x.toNat c).length := by
      rw [List.length_set, hrow]; omega
    rw [List.getD_eq_getElem _ _ hxlen, List.getElem_set_self]
  · next hcon => exact absurd ⟨hx0, hxw, hy0, hyh⟩ hcon

end Screen

/-! ### C1: set/get round trip and out-of-bounds behaviour -/

/-- C1: for a well-formed buffer, `set(x, y, c)` followed by `get(x, y)`
returns `c` whenever `(x, y)` is in bounds; for out-of-bounds `(x, y)`,
`set` leaves the screen completely unchanged and `get` returns space. -/
theorem set_get_spec (s : Screen) (x y : Int) (c : Char) (hwf : s.WF) :
    (s.inBounds x y → (s.set_pixel x y c).get_pixel x y = c) ∧
    (¬ s.inBounds x y → s.set_pixel x y c = s ∧ s.get_pixel x y = ' ') := by
  constructor
  · intro h
    exact s.get_pixel_set_pixel_same x y c hwf h
  · intro h
    exact ⟨s.set_pixel_of_not_inBounds x y c h, s.get_pixel_of_not_inBounds x y h⟩

/-- Witness for C1 on a concrete 3×2 screen. -/
theorem set_get_spec_witness :
    (Screen.init 3 2).WF ∧
    (((Screen.init 3 2).inBounds 1 1 →
        ((Screen.init 3 2).set_pixel 1 1 'A').get_pixel 1 1 = 'A') ∧
      (¬ (Screen.init 3 2).inBounds 1 1 →
        (Screen.init 3 2).set_pixel 1 1 'A' = Screen.init 3 2 ∧
          (Screen.init 3 2).get_pixel 1 1 = ' ')) :=
  ⟨by decide, set_get_spec (Screen.init 3 2) 1 1 'A' (by decide)⟩

/-! ### C2: rendering a fresh or cleared buffer -/

/-- C2: a freshly created (or freshly cleared) `w × h` buffer renders as
`h + 2` lines: a `+`/`-` border of length `w + 2`, then `h` framed rows
of `w` spaces, then the border again; in general `render` frames each
buffer row between `|` characters, in row order, between the two border
lines, joined by newlines. -/
theorem render_fresh_spec (s : Screen) (w h : Int) (hw : 0 < w) (hh : 0 < h) :
    (Screen.init w h).renderLines
        = [borderLine w] ++ List.replicate h.toNat (blankLine w) ++ [borderLine w] ∧
    (Screen.init w h).renderLines.length = h.toNat + 2 ∧
    (h.toNat : Int) = h ∧ (w.toNat : Int) = w ∧
    (borderLine w).length = w.toNat + 2 ∧
    (blankLine w).length = w.toNat + 2 ∧
    s.clear.renderLines = (Screen.init s.width s.height).renderLines ∧
    s.renderLines
        = [borderLine s.width]
            ++ s.buffer.map (fun row => "|" ++ String.mk row ++ "|")
            ++ [borderLine s.width] ∧
    s.render = String.intercalate "\n" s.renderLines := by
  have hone : ∀ ch : Char, (String.mk [ch]).length = 1 := fun _ => rfl
  refine ⟨?_, ?_, by omega, by omega, ?_, ?_, rfl, ?_, rfl⟩
  · simp [Screen.renderLines, Screen.init, createBuffer, borderLine, blankLine,
      List.map_replicate]
  · simp [Screen.renderLines, Screen.init, createBuffer, List.map_replicate]
  · have h1 : ("+" : String).length = 1 := rfl
    simp [borderLine, String.length_append, h1, String.length_mk]
    omega
  · have h1 : ("|" : String).length = 1 := rfl
    simp [blankLine, String.length_append, h1, String.length_mk]
    omega
  · simp [Screen.renderLines, borderLine, List.map_map]

/-- Witness for C2 at `w = 3`, `h = 2` (and a concrete screen for the
`clear`/general-framing conjuncts). -/
theorem render_fresh_spec_witness :
    (0 : Int) < 3 ∧ (0 : Int) < 2 ∧
    ((Screen.init 3 2).renderLines
        = [borderLine 3] ++ List.replicate (2 : Int).toNat (blankLine 3) ++ [borderLine 3] ∧
      (Screen.init 3 2).renderLines.length = (2 : Int).toNat + 2 ∧
      ((2 : Int).toNat : Int) = 2 ∧ ((3 : Int).toNat : Int) = 3 ∧
      (borderLine 3).length = (3 : Int).toNat + 2 ∧
      (blankLine 3).length = (3 : Int).toNat + 2 ∧
      (Screen.init 5 1).clear.renderLines
          = (Screen.init (Screen.init 5 1).width (Screen.init 5 1).height).renderLines ∧
      (Screen.init 5 1).renderLines
          = [borderLine (Screen.init 5 1).width]
              ++ (Screen.init 5 1).buffer.map (fun row => "|" ++ String.mk row ++ "|")
              ++ [borderLine (Screen.init 5 1).width] ∧
      (Screen.init 5 1).render = String.intercalate "\n" (Screen.init 5 1).renderLines) :=
  ⟨by decide, by decide, render_fresh_spec (Screen.init 5 1) 3 2 (by decide) (by decide)⟩

/-! ### C3: construction performs no validation -/

/-- C3 counterexample: at width 0, height 5 the spec's `create` fails with
`InvalidDimension`, but the source's constructor performs no validation:
it returns a screen (five empty rows) rather than failing, so "buffer
creation with width ≤ 0 fails, and no buffer is produced" is false of the
code. -/
theorem init_no_validation_counterexample :
    create_spec 0 5 = Except.error CreateError.InvalidDimension ∧
    Screen.init 0 5 = { width := 0, height := 5, buffer := [[], [], [], [], []] } := by
  constructor
  · rfl
  · rfl

/-- C3 amended: construction never fails — `Screen.__init__` stores the
dimensions and builds `max(h,0)` rows of `max(w,0)` spaces with no check;
for positive dimensions this is a well-formed buffer entirely filled with
spaces. -/
theorem init_spec (w h : Int) (hw : 0 < w) (hh : 0 < h) :
    (Screen.init w h).width = w ∧ (Screen.init w h).height = h ∧
    (Screen.init w h).buffer = List.replicate h.toNat (List.replicate w.toNat ' ') ∧
    (Screen.init w h).WF ∧
    (∀ row ∈ (Screen.init w h).buffer, ∀ c ∈ row, c = ' ') := by
  refine ⟨rfl, rfl, rfl, ⟨by simp [Screen.init, createBuffer], ?_⟩, ?_⟩
  · intro row hrow
    rw [List.eq_of_mem_replicate hrow]
    simp [Screen.init]
  · intro row hrow c hc
    rw [List.eq_of_mem_replicate hrow] at hc
    exact List.eq_of_mem_replicate hc

/-! ### C7: slide motion -/

theorem ratTrunc_intCast (n : Int) : ratTrunc (n : ℚ) = n := by
  unfold ratTrunc
  split
  · exact Int.floor_intCast n
  · rw [show -((n : Int) : ℚ) = ((-n : Int) : ℚ) by push_cast; ring,
      Int.floor_intCast]
    omega

theorem ratTrunc_mono {q r : ℚ} (h : q ≤ r) : ratTrunc q ≤ ratTrunc r := by
  unfold ratTrunc
  split
  · split
    · exact Int.floor_le_floor h
    · next h1 h2 => exact absurd (le_trans h1 h) h2
  · split
    · next h1 h2 =>
      have hq : (0 : ℚ) ≤ -q := by linarith [lt_of_not_le h1]
      have hq' : (0 : Int) ≤ ⌊-q⌋ := by
        rw [Int.le_floor]; exact_mod_cast hq
      have hr' : (0 : Int) ≤ ⌊r⌋ := by
        rw [Int.le_floor]; exact_mod_cast h2
      omega
    · next h1 h2 =>
      have : ⌊-r⌋ ≤ ⌊-q⌋ := Int.floor_le_floor (by linarith)
      omega

/-- C7 counterexample: at `frame = 3`, `start = -5`, `end = 5`,
`duration = 60` the interpolated value is `-9/2`; the code's `int(...)`
truncates toward zero and returns `-4`, while the claim's `floor` is `-5`. -/
theorem slide_position_not_floor :
    slide_position 3 (-5) 5 60 = -4 ∧
    ⌊((-5 : ℚ) + ((5 : ℚ) - (-5 : ℚ)) * min ((3 : ℚ) / (60 : ℚ)) 1)⌋ = -5 := by
  constructor
  · simp only [slide_position]
    have hmin : min (((3 : Int) : ℚ) / ((60 : Int) : ℚ)) 1 = 1 / 20 := by norm_num
    rw [hmin]
    rw [show (((-5 : Int) : ℚ) + (((5 : Int) : ℚ) - ((-5 : Int) : ℚ)) * (1 / 20))
        = -(9 / 2) by push_cast; norm_num]
    unfold ratTrunc
    rw [if_neg (by norm_num)]
    norm_num
  · norm_num

/-- C7 amended: `slide_position` equals the interpolation
`start + (end − start) * min(frame / duration, 1)` truncated toward zero
(Python `int(...)`), not floored; it returns `start` at frame 0, exactly
`end` for every `frame ≥ duration`, and is monotone non-decreasing in the
frame when `start < end`. -/
theorem slide_position_spec (frame start endv duration f1 f2 : Int)
    (hdur : 0 < duration) :
    slide_position frame start endv duration
        = ratTrunc ((start : ℚ)
            + ((endv : ℚ) - (start : ℚ)) * min ((frame : ℚ) / (duration : ℚ)) 1) ∧
    slide_position 0 start endv duration = start ∧
    (duration ≤ frame → slide_position frame start endv duration = endv) ∧
    (0 ≤ f1 → f1 ≤ f2 → start < endv →
      slide_position f1 start endv duration ≤ slide_position f2 start endv duration) := by
  have hdq : (0 : ℚ) < (duration : ℚ) := by exact_mod_cast hdur
  refine ⟨rfl, ?_, ?_, ?_⟩
  · simp only [slide_position]
    norm_num
    exact ratTrunc_intCast start
  · intro hf
    have h1 : (1 : ℚ) ≤ (frame : ℚ) / (duration : ℚ) := by
      rw [le_div_iff₀ hdq]
      have : (duration : ℚ) ≤ (frame : ℚ) := by exact_mod_cast hf
      linarith
    simp only [slide_position]
    rw [min_eq_right h1]
    rw [show (start : ℚ) + ((endv : ℚ) - (start : ℚ)) * 1 = ((endv : Int) : ℚ) by
      push_cast; ring]
    exact ratTrunc_intCast endv
  · intro _ h12 hlt
    simp only [slide_position]
    apply ratTrunc_mono
    have hmin : min ((f1 : ℚ) / (duration : ℚ)) 1 ≤ min ((f2 : ℚ) / (duration : ℚ)) 1 := by
      apply min_le_min _ le_rfl
      apply div_le_div_of_nonneg_right ?_ hdq.le
      exact_mod_cast h12
    have hpos : (0 : ℚ) ≤ (endv : ℚ) - (start : ℚ) := by
      have : (start : ℚ) ≤ (endv : ℚ) := by exact_mod_cast le_of_lt hlt
      linarith
    nlinarith [mul_le_mul_of_nonneg_left hmin hpos]

/-- Witness for C7 (amended) at `start = 5`, `end = 9`, `duration = 60`. -/
theorem slide_position_spec_witness :
    (0 : Int) < 60 ∧
    (slide_position 70 5 9 60
        = ratTrunc ((5 : ℚ) + ((9 : ℚ) - (5 : ℚ)) * min ((70 : ℚ) / (60 : ℚ)) 1) ∧
      slide_position 0 5 9 60 = 5 ∧
      ((60 : Int) ≤ 70 → slide_position 70 5 9 60 = 9) ∧
      ((0 : Int) ≤ 10 → (10 : Int) ≤ 20 → (5 : Int) < 9 →
        slide_position 10 5 9 60 ≤ slide_position 20 5 9 60)) :=
  ⟨by decide, by
    have h := slide_position_spec 70 5 9 60 10 20 (by decide)
    push_cast at h ⊢
    exact h⟩

/-! ### Degenerate-shape lemmas (C8) -/

theorem foldl_skip {α β : Type} : ∀ (l : List α) (s : β),
    List.foldl (fun t _ => t) s l = s
  | [], _ => rfl
  | _ :: l, s => foldl_skip l s

/-- Writing the same character twice at the same cell is the same as
writing it once. -/
theorem Screen.set_pixel_set_pixel_same (s : Screen) (x y : Int) (c : Char) :
    (s.set_pixel x y c).set_pixel x y c = s.set_pixel x y c := by
  by_cases h : s.inBounds x y
  · unfold Screen.set_pixel
    rw [if_pos h]
    split
    · simp only [Screen.mk.injEq, true_and]
      by_cases hlen : y.toNat < s.buffer.length
      · have hB1 : ((s.buffer.set y.toNat ((s.buffer.getD y.toNat []).set x.toNat c)).getD
            y.toNat []) = (s.buffer.getD y.toNat []).set x.toNat c := by
          rw [List.getD_eq_getElem _ _ (by rw [List.length_set]; exact hlen),
            List.getElem_set_self]
        rw [hB1, List.set_set, List.set_set]
      · push_neg at hlen
        rw [List.set_eq_of_length_le (by rw [List.length_set]; exact hlen),
          List.set_eq_of_length_le hlen]
    · next hcon => exact absurd h hcon
  · rw [Screen.set_pixel_of_not_inBounds _ _ _ _ h,
      Screen.set_pixel_of_not_inBounds _ _ _ _ h]

/-- Plotting the same cell `n + 1` times with the same character equals
plotting it once. -/
theorem foldl_set_pixel_replicate (n : ℕ) (s : Screen) (x y : Int) (c : Char) :
    (List.replicate (n + 1) (x, y)).foldl (fun t p => t.set_pixel p.1 p.2 c) s
      = s.set_pixel x y c := by
  induction n generalizing s with
  | zero => rfl
  | succ n ih =>
    rw [List.replicate_succ, List.foldl_cons]
    rw [ih (s.set_pixel x y c)]
    exact Screen.set_pixel_set_pixel_same s x y c

/-- A zero-radius circle walk plots the centre eight times. -/
theorem circleCells_zero (cx cy : Int) : circleCells cx cy 0 = List.replicate 8 (cx, cy) := by
  unfold circleCells
  norm_num [circleLoop, circleOctet, List.replicate]

theorem draw_circle_zero (s : Screen) (cx cy : Int) (c : Char) :
    draw_circle s cx cy 0 c = s.set_pixel cx cy c := by
  unfold draw_circle
  rw [circleCells_zero]
  exact foldl_set_pixel_replicate 7 s cx cy c

/-- A degenerate single-point segment plots exactly its endpoint. -/
theorem lineCells_self (x y : Int) : lineCells x y x y = [(x, y)] := by
  unfold lineCells lineRun
  simp [lineLoop]

theorem draw_line_self (s : Screen) (x y : Int) (c : Char) :
    draw_line s x y x y c = s.set_pixel x y c := by
  unfold draw_line
  rw [lineCells_self]
  rfl

theorem intRange_of_nonpos {n : Int} (h : n ≤ 0) : intRange n = [] := by
  unfold intRange
  rw [Int.toNat_of_nonpos h]
  rfl

theorem draw_filled_box_noop (s : Screen) (x y w h : Int) (c : Char)
    (hwh : w ≤ 0 ∨ h ≤ 0) : draw_filled_box s x y w h c = s := by
  rcases hwh with hw | hh
  · unfold draw_filled_box
    rw [intRange_of_nonpos hw]
    simp only [List.foldl_nil]
    exact foldl_skip _ s
  · unfold draw_filled_box
    rw [intRange_of_nonpos hh]
    rfl

theorem draw_box_noop (s : Screen) (x y w h : Int) (c : Char)
    (hw : w ≤ 0) (hh : h ≤ 0) : draw_box s x y w h c = s := by
  unfold draw_box
  rw [intRange_of_nonpos hw, intRange_of_nonpos hh]
  rfl

/-! ### C8: geometric edge cases -/

/-- C8 counterexample: `draw_box` with `width = 0` (and `height = 2`) is
not degraded to a no-op or a single point — it still writes its left and
right edge columns (at `x` and `x - 1`), here two distinct in-bounds
cells of a 3×2 screen. -/
theorem draw_box_zero_width_counterexample :
    (draw_box (Screen.init 3 2) 1 0 0 2 '#').get_pixel 0 0 = '#' ∧
    (draw_box (Screen.init 3 2) 1 0 0 2 '#').get_pixel 1 1 = '#' ∧
    (Screen.init 3 2).get_pixel 0 0 = ' ' := by decide

/-- C8 amended: geometric edge cases never error: zero-radius circles and
single-point segments write exactly one point; `draw_filled_box` with
zero or negative width or height writes nothing; `draw_box` with both
dimensions non-positive writes nothing (with only one dimension
non-positive it still writes the two opposite edges); out-of-buffer
coordinates are silently clipped by `set_pixel`. -/
theorem geometric_edge_cases (s : Screen) (cx cy x y w1 h1 w2 h2 p q px py : Int)
    (c : Char) (hfb : w1 ≤ 0 ∨ h1 ≤ 0) (hbw : w2 ≤ 0) (hbh : h2 ≤ 0)
    (hpq : ¬ s.inBounds p q) :
    draw_circle s cx cy 0 c = s.set_pixel cx cy c ∧
    draw_line s px py px py c = s.set_pixel px py c ∧
    draw_filled_box s x y w1 h1 c = s ∧
    draw_box s x y w2 h2 c = s ∧
    s.set_pixel p q c = s :=
  ⟨draw_circle_zero s cx cy c, draw_line_self s px py c,
    draw_filled_box_noop s x y w1 h1 c hfb, draw_box_noop s x y w2 h2 c hbw hbh,
    s.set_pixel_of_not_inBounds p q c hpq⟩

/-- Witness for C8 (amended) on a concrete 3×2 screen. -/
theorem geometric_edge_cases_witness :
    ((0 : Int) ≤ 0 ∨ (5 : Int) ≤ 0) ∧ (-1 : Int) ≤ 0 ∧ (0 : Int) ≤ 0 ∧
    (¬ (Screen.init 3 2).inBounds (-1) 0) ∧
    (draw_circle (Screen.init 3 2) 1 1 0 '*' = (Screen.init 3 2).set_pixel 1 1 '*' ∧
      draw_line (Screen.init 3 2) 2 0 2 0 '*' = (Screen.init 3 2).set_pixel 2 0 '*' ∧
      draw_filled_box (Screen.init 3 2) 0 0 0 5 '*' = Screen.init 3 2 ∧
      draw_box (Screen.init 3 2) 0 0 (-1) 0 '*' = Screen.init 3 2 ∧
      (Screen.init 3 2).set_pixel (-1) 0 '*' = Screen.init 3 2) :=
  ⟨Or.inl (by decide), by decide, by decide, by decide,
    geometric_edge_cases (Screen.init 3 2) 1 1 0 0 0 5 (-1) 0 (-1) 0 2 0 '*'
      (Or.inl (by decide)) (by decide) (by decide) (by decide)⟩

/-! ### C4 counterexample: Bresenham is not direction-symmetric -/

/-- C4 counterexample: rasterizing `(0,0) → (2,1)` covers `(1,0)` while
`(2,1) → (0,0)` covers `(1,1)` instead, so the two directions leave equal
buffers in different states. -/
theorem draw_line_not_symmetric :
    draw_line (Screen.init 3 2) 0 0 2 1 '*' ≠ draw_line (Screen.init 3 2) 2 1 0 0 '*' ∧
    lineCells 0 0 2 1 = [(0, 0), (1, 0), (2, 1)] ∧
    lineCells 2 1 0 0 = [(2, 1), (1, 1), (0, 0)] := by
  refine ⟨by decide, by decide, by decide⟩

/-! ### Locality of `set_pixel` and `draw_text` (C10) -/

/-- `set_pixel` at row `y` leaves every other row untouched. -/
theorem Screen.set_pixel_row_other (s : Screen) (x y : Int) (c : Char) (r : ℕ)
    (hr : (r : Int) ≠ y) :
    (s.set_pixel x y c).buffer.getD r [] = s.buffer.getD r [] := by
  unfold Screen.set_pixel
  split
  · next hin =>
    have hne : y.toNat ≠ r := by
      obtain ⟨_, _, hy0, _⟩ := hin
      omega
    simp only
    rw [List.getD_eq_getElem?_getD, List.getElem?_set_ne hne,
      ← List.getD_eq_getElem?_getD]
  · rfl

/-- `set_pixel` changes `get_pixel` at no cell other than `(x, y)`. -/
theorem Screen.get_pixel_set_pixel_ne (s : Screen) (x y u v : Int) (c : Char)
    (h : ¬(u = x ∧ v = y)) :
    (s.set_pixel x y c).get_pixel u v = s.get_pixel u v := by
  by_cases hin : s.inBounds x y
  · by_cases huv : s.inBounds u v
    · unfold Screen.get_pixel
      rw [if_pos ((s.set_pixel_inBounds_iff x y u v c).mpr huv), if_pos huv]
      unfold Screen.set_pixel
      rw [if_pos hin]
      simp only
      by_cases hvy : v = y
      · have hux : u ≠ x := fun huxx => h ⟨huxx, hvy⟩
        have hvy' : v.toNat = y.toNat := by rw [hvy]
        have hux' : x.toNat ≠ u.toNat := by
          obtain ⟨hu0, _, _, _⟩ := huv
          obtain ⟨hx0, _, _, _⟩ := hin
          omega
        rw [hvy']
        by_cases hlen : y.toNat < s.buffer.length
        · have h1 : (s.buffer.set y.toNat ((s.buffer.getD y.toNat []).set x.toNat c)).getD
              y.toNat [] = (s.buffer.getD y.toNat []).set x.toNat c := by
            rw [List.getD_eq_getElem?_getD, List.getElem?_set_self hlen]
            rfl
          rw [h1]
          rw [List.getD_eq_getElem?_getD, List.getElem?_set_ne hux',
            ← List.getD_eq_getElem?_getD]
        · push_neg at hlen
          rw [List.set_eq_of_length_le hlen]
      · have hvy' : y.toNat ≠ v.toNat := by
          obtain ⟨_, _, hv0, _⟩ := huv
          obtain ⟨_, _, hy0, _⟩ := hin
          omega
        have h2 : (s.buffer.set y.toNat ((s.buffer.getD y.toNat []).set x.toNat c)).getD
            v.toNat [] = s.buffer.getD v.toNat [] := by
          rw [List.getD_eq_getElem?_getD, List.getElem?_set_ne hvy',
            ← List.getD_eq_getElem?_getD]
        rw [h2]
    · rw [Screen.get_pixel_of_not_inBounds _ _ _ huv,
        Screen.get_pixel_of_not_inBounds _ u v
          (fun hc => huv ((s.set_pixel_inBounds_iff x y u v c).mp hc))]
  · rw [Screen.set_pixel_of_not_inBounds _ _ _ _ hin]

theorem drawTextAux_width : ∀ (t : List Char) (s : Screen) (x y : Int),
    (drawTextAux s x y t).width = s.width
  | [], _, _, _ => rfl
  | ch :: t, s, x, y => by
    rw [show drawTextAux s x y (ch :: t) = drawTextAux (s.set_pixel x y ch) (x + 1) y t
        from rfl, drawTextAux_width t, Screen.set_pixel_width]

theorem drawTextAux_height : ∀ (t : List Char) (s : Screen) (x y : Int),
    (drawTextAux s x y t).height = s.height
  | [], _, _, _ => rfl
  | ch :: t, s, x, y => by
    rw [show drawTextAux s x y (ch :: t) = drawTextAux (s.set_pixel x y ch) (x + 1) y t
        from rfl, drawTextAux_height t, Screen.set_pixel_height]

theorem drawTextAux_buffer_length : ∀ (t : List Char) (s : Screen) (x y : Int),
    (drawTextAux s x y t).buffer.length = s.buffer.length
  | [], _, _, _ => rfl
  | ch :: t, s, x, y => by
    rw [show drawTextAux s x y (ch :: t) = drawTextAux (s.set_pixel x y ch) (x + 1) y t
        from rfl, drawTextAux_buffer_length t, Screen.set_pixel_buffer_length]

theorem drawTextAux_row_other : ∀ (t : List Char) (s : Screen) (x y : Int) (r : ℕ),
    (r : Int) ≠ y → (drawTextAux s x y t).buffer.getD r [] = s.buffer.getD r []
  | [], _, _, _, _, _ => rfl
  | ch :: t, s, x, y, r, hr => by
    rw [show drawTextAux s x y (ch :: t) = drawTextAux (s.set_pixel x y ch) (x + 1) y t
        from rfl, drawTextAux_row_other t _ _ _ _ hr,
      Screen.set_pixel_row_other s x y ch r hr]

theorem drawTextAux_get_pixel : ∀ (t : List Char) (s : Screen) (x y u v : Int),
    ¬(v = y ∧ x ≤ u ∧ u < x + (t.length : Int)) →
    (drawTextAux s x y t).get_pixel u v = s.get_pixel u v
  | [], _, _, _, _, _, _ => rfl
  | ch :: t, s, x, y, u, v, h => by
    have hlen : ((ch :: t).length : Int) = (t.length : Int) + 1 := by
      simp
    rw [show drawTextAux s x y (ch :: t) = drawTextAux (s.set_pixel x y ch) (x + 1) y t
        from rfl]
    rw [drawTextAux_get_pixel t _ (x + 1) y u v (by
      intro ⟨h1, h2, h3⟩
      exact h ⟨h1, by omega, by rw [hlen]; omega⟩)]
    exact Screen.get_pixel_set_pixel_ne s x y u v ch (by
      intro ⟨h1, h2⟩
      refine h ⟨h2, le_of_eq h1.symm, ?_⟩
      have : (0 : Int) ≤ ((ch :: t).length : Int) - 1 := by
        rw [hlen]; omega
      omega)

/-! ### C10: draw_text only touches its own row segment -/

/-- C10: `draw_text(screen, x, y, text)` modifies only cells of row `y`
at columns `x .. x + len(text) - 1` that lie in bounds: the dimensions,
the number of rows, every other row, and every cell outside that column
range are left unchanged. -/
theorem draw_text_frame_effect (s : Screen) (x y : Int) (t : String) (u v : Int) (r : ℕ)
    (huv : ¬(v = y ∧ x ≤ u ∧ u < x + (t.length : Int)))
    (hr : (r : Int) ≠ y) :
    (draw_text s x y t).width = s.width ∧
    (draw_text s x y t).height = s.height ∧
    (draw_text s x y t).buffer.length = s.buffer.length ∧
    (draw_text s x y t).buffer.getD r [] = s.buffer.getD r [] ∧
    (draw_text s x y t).get_pixel u v = s.get_pixel u v :=
  ⟨drawTextAux_width t.data s x y, drawTextAux_height t.data s x y,
    drawTextAux_buffer_length t.data s x y,
    drawTextAux_row_other t.data s x y r hr,
    drawTextAux_get_pixel t.data s x y u v huv⟩

/-- Witness for C10: drawing "AB" at row 1 of a 3×2 screen leaves row 0
and the cell right of the text unchanged. -/
theorem draw_text_frame_effect_witness :
    (¬((0 : Int) = 1 ∧ (0 : Int) ≤ 2 ∧ (2 : Int) < 0 + (("AB" : String).length : Int))) ∧
    (((0 : ℕ) : Int) ≠ 1) ∧
    ((draw_text (Screen.init 3 2) 0 1 "AB").width = (Screen.init 3 2).width ∧
      (draw_text (Screen.init 3 2) 0 1 "AB").height = (Screen.init 3 2).height ∧
      (draw_text (Screen.init 3 2) 0 1 "AB").buffer.length
          = (Screen.init 3 2).buffer.length ∧
      (draw_text (Screen.init 3 2) 0 1 "AB").buffer.getD 0 []
          = (Screen.init 3 2).buffer.getD 0 [] ∧
      (draw_text (Screen.init 3 2) 0 1 "AB").get_pixel 2 0
          = (Screen.init 3 2).get_pixel 2 0) :=
  ⟨by decide, by decide,
    draw_text_frame_effect (Screen.init 3 2) 0 1 "AB" 2 0 0 (by decide) (by decide)⟩

/-! ### C9: buffer shape invariant under arbitrary operation sequences -/

/-- The operation alphabet of the claim: clear, single-cell writes, and
every rasterizer call. -/
inductive DrawOp where
  | clearOp : DrawOp
  | setOp (x y : Int) (c : Char) : DrawOp
  | boxOp (x y w h : Int) (c : Char) : DrawOp
  | filledBoxOp (x y w h : Int) (c : Char) : DrawOp
  | lineOp (x1 y1 x2 y2 : Int) (c : Char) : DrawOp
  | circleOp (cx cy r : Int) (c : Char) : DrawOp
  | textOp (x y : Int) (t : String) : DrawOp
  deriving DecidableEq

/-- Apply one operation to a screen. -/
def applyOp (s : Screen) : DrawOp → Screen
  | .clearOp => s.clear
  | .setOp x y c => s.set_pixel x y c
  | .boxOp x y w h c => draw_box s x y w h c
  | .filledBoxOp x y w h c => draw_filled_box s x y w h c
  | .lineOp x1 y1 x2 y2 c => draw_line s x1 y1 x2 y2 c
  | .circleOp cx cy r c => draw_circle s cx cy r c
  | .textOp x y t => draw_text s x y t

/-- The characters an operation may write into cells. -/
def opChars : DrawOp → List Char
  | .clearOp => []
  | .setOp _ _ c => [c]
  | .boxOp _ _ _ _ c => [c]
  | .filledBoxOp _ _ _ _ c => [c]
  | .lineOp _ _ _ _ c => [c]
  | .circleOp _ _ _ c => [c]
  | .textOp _ _ t => t.data

/-- Invariant for C9: fixed dimensions, well-formed shape, and every cell
satisfying the character predicate `P`. -/
def GoodScreen (P : Char → Prop) (w h : Int) (s : Screen) : Prop :=
  s.width = w ∧ s.height = h ∧ s.WF ∧ ∀ row ∈ s.buffer, ∀ c ∈ row, P c

theorem GoodScreen.set_pixel {P : Char → Prop} {w h : Int} {s : Screen}
    (hs : GoodScreen P w h s) {c : Char} (hc : P c) (x y : Int) :
    GoodScreen P w h (s.set_pixel x y c) := by
  obtain ⟨hw, hh, ⟨hlen, hrows⟩, hcells⟩ := hs
  unfold Screen.set_pixel
  split
  · next hin =>
    obtain ⟨hx0, hxw, hy0, hyh⟩ := hin
    have hylen : y.toNat < s.buffer.length := by rw [hlen]; omega
    have hrowmem : s.buffer.getD y.toNat [] ∈ s.buffer := by
      rw [List.getD_eq_getElem _ _ hylen]
      exact List.getElem_mem hylen
    refine ⟨hw, hh, ⟨?_, ?_⟩, ?_⟩
    · simpa using hlen
    · intro row hrow
      rcases List.mem_or_eq_of_mem_set hrow with hmem | heq
      · exact hrows row hmem
      · subst heq
        rw [List.length_set]
        exact hrows _ hrowmem
    · intro row hrow c' hc'
      rcases List.mem_or_eq_of_mem_set hrow with hmem | heq
      · exact hcells row hmem c' hc'
      · subst heq
        rcases List.mem_or_eq_of_mem_set hc' with hm2 | he2
        · exact hcells _ hrowmem c' hm2
        · subst he2
          exact hc
  · exact ⟨hw, hh, ⟨hlen, hrows⟩, hcells⟩

theorem GoodScreen.clear {P : Char → Prop} {w h : Int} {s : Screen}
    (hs : GoodScreen P w h s) (hsp : P ' ') : GoodScreen P w h s.clear := by
  obtain ⟨hw, hh, _, _⟩ := hs
  refine ⟨hw, hh, ⟨by simp [Screen.clear, createBuffer], ?_⟩, ?_⟩
  · intro row hrow
    rw [List.eq_of_mem_replicate hrow]
    simp [Screen.clear]
  · intro row hrow c hc
    rw [List.eq_of_mem_replicate hrow] at hc
    rw [List.eq_of_mem_replicate hc]
    exact hsp

theorem GoodScreen.foldl {P : Char → Prop} {w h : Int} {α : Type}
    (f : Screen → α → Screen)
    (hf : ∀ s a, GoodScreen P w h s → GoodScreen P w h (f s a)) :
    ∀ (l : List α) {s : Screen}, GoodScreen P w h s →
      GoodScreen P w h (l.foldl f s)
  | [], _, hs => hs
  | a :: l, s, hs => GoodScreen.foldl f hf l (hf s a hs)

theorem GoodScreen.drawTextAuxPreserved {P : Char → Prop} {w h : Int} :
    ∀ (t : List Char) {s : Screen} (x y : Int),
      GoodScreen P w h s → (∀ c ∈ t, P c) →
      GoodScreen P w h (drawTextAux s x y t)
  | [], _, _, _, hs, _ => hs
  | ch :: t, s, x, y, hs, hts =>
    GoodScreen.drawTextAuxPreserved t (x + 1) y
      (hs.set_pixel (hts ch (by simp)) x y)
      (fun c hc => hts c (by simp [hc]))

theorem GoodScreen.applyOpPreserved {P : Char → Prop} {w h : Int} {s : Screen}
    (op : DrawOp) (hs : GoodScreen P w h s) (hsp : P ' ')
    (hop : ∀ c ∈ opChars op, P c) : GoodScreen P w h (applyOp s op) := by
  cases op with
  | clearOp => exact hs.clear hsp
  | setOp x y c => exact hs.set_pixel (hop c (by simp [opChars])) x y
  | boxOp x y bw bh c =>
    have hc : P c := hop c (by simp [opChars])
    exact GoodScreen.foldl _
      (fun s j hgood => (hgood.set_pixel hc _ _).set_pixel hc _ _) _
      (GoodScreen.foldl _
        (fun s i hgood => (hgood.set_pixel hc _ _).set_pixel hc _ _) _ hs)
  | filledBoxOp x y bw bh c =>
    have hc : P c := hop c (by simp [opChars])
    exact GoodScreen.foldl _
      (fun s j hgood =>
        GoodScreen.foldl _ (fun t i hg => hg.set_pixel hc _ _) _ hgood) _ hs
  | lineOp x1 y1 x2 y2 c =>
    have hc : P c := hop c (by simp [opChars])
    exact GoodScreen.foldl _ (fun s p hg => hg.set_pixel hc _ _) _ hs
  | circleOp cx cy r c =>
    have hc : P c := hop c (by simp [opChars])
    exact GoodScreen.foldl _ (fun s p hg => hg.set_pixel hc _ _) _ hs
  | textOp x y t =>
    exact GoodScreen.drawTextAuxPreserved t.data x y hs
      (fun c hc => hop c (by simpa [opChars] using hc))

theorem GoodScreen.opsPreserved {P : Char → Prop} {w h : Int} (hsp : P ' ') :
    ∀ (ops : List DrawOp) {s : Screen}, GoodScreen P w h s →
      (∀ op ∈ ops, ∀ c ∈ opChars op, P c) →
      GoodScreen P w h (ops.foldl applyOp s)
  | [], _, hs, _ => hs
  | op :: ops, s, hs, hops =>
    GoodScreen.opsPreserved hsp ops
      (hs.applyOpPreserved op hsp (hops op (by simp)))
      (fun op' hop' => hops op' (by simp [hop']))

/-- C9: starting from a screen of positive dimensions, any sequence of
clear, set, box, filled-box, line, circle and text operations leaves a
buffer of exactly `height` rows of exactly `width` single-character
cells; no operation resizes the buffer, and every cell always satisfies
any property `P` that holds of space and of every written character. -/
theorem buffer_shape_invariant (w h : Int) (ops : List DrawOp) (P : Char → Prop)
    (hw : 0 < w) (hh : 0 < h) (hP : P ' ')
    (hops : ∀ op ∈ ops, ∀ c ∈ opChars op, P c) :
    (ops.foldl applyOp (Screen.init w h)).width = w ∧
    (ops.foldl applyOp (Screen.init w h)).height = h ∧
    (ops.foldl applyOp (Screen.init w h)).buffer.length = h.toNat ∧
    (∀ row ∈ (ops.foldl applyOp (Screen.init w h)).buffer, row.length = w.toNat) ∧
    (∀ row ∈ (ops.foldl applyOp (Screen.init w h)).buffer, ∀ c ∈ row, P c) := by
  have hinit : GoodScreen P w h (Screen.init w h) := by
    refine ⟨rfl, rfl, ⟨by simp [Screen.init, createBuffer], ?_⟩, ?_⟩
    · intro row hrow
      rw [List.eq_of_mem_replicate hrow]
      simp [Screen.init]
    · intro row hrow c hc
      rw [List.eq_of_mem_replicate hrow] at hc
      rw [List.eq_of_mem_replicate hc]
      exact hP
  obtain ⟨h1, h2, ⟨h3, h4⟩, h5⟩ := GoodScreen.opsPreserved hP ops hinit hops
  refine ⟨h1, h2, by rw [h3, h2], fun row hr => by rw [h4 row hr, h1], h5⟩

/-- Witness for C9 on a concrete screen and operation list. -/
theorem buffer_shape_invariant_witness :
    (0 : Int) < 3 ∧ (0 : Int) < 2 ∧
    (fun c => c = ' ' ∨ c = '#' ∨ c = 'A' ∨ c = 'B') ' ' ∧
    (∀ op ∈ [DrawOp.setOp 0 0 '#', DrawOp.clearOp, DrawOp.lineOp 0 0 2 1 '#',
        DrawOp.textOp 0 1 "AB"],
      ∀ c ∈ opChars op, c = ' ' ∨ c = '#' ∨ c = 'A' ∨ c = 'B') ∧
    (([DrawOp.setOp 0 0 '#', DrawOp.clearOp, DrawOp.lineOp 0 0 2 1 '#',
        DrawOp.textOp 0 1 "AB"].foldl applyOp (Screen.init 3 2)).width = 3 ∧
      ([DrawOp.setOp 0 0 '#', DrawOp.clearOp, DrawOp.lineOp 0 0 2 1 '#',
        DrawOp.textOp 0 1 "AB"].foldl applyOp (Screen.init 3 2)).height = 2 ∧
      ([DrawOp.setOp 0 0 '#', DrawOp.clearOp, DrawOp.lineOp 0 0 2 1 '#',
        DrawOp.textOp 0 1 "AB"].foldl applyOp (Screen.init 3 2)).buffer.length
          = (2 : Int).toNat ∧
      (∀ row ∈ ([DrawOp.setOp 0 0 '#', DrawOp.clearOp, DrawOp.lineOp 0 0 2 1 '#',
        DrawOp.textOp 0 1 "AB"].foldl applyOp (Screen.init 3 2)).buffer,
        row.length = (3 : Int).toNat) ∧
      (∀ row ∈ ([DrawOp.setOp 0 0 '#', DrawOp.clearOp, DrawOp.lineOp 0 0 2 1 '#',
        DrawOp.textOp 0 1 "AB"].foldl applyOp (Screen.init 3 2)).buffer,
        ∀ c ∈ row, c = ' ' ∨ c = '#' ∨ c = 'A' ∨ c = 'B')) :=
  ⟨by decide, by decide, by decide, by decide,
    buffer_shape_invariant 3 2
      [DrawOp.setOp 0 0 '#', DrawOp.clearOp, DrawOp.lineOp 0 0 2 1 '#',
        DrawOp.textOp 0 1 "AB"]
      (fun c => c = ' ' ∨ c = '#' ∨ c = 'A' ∨ c = 'B')
      (by decide) (by decide) (by decide) (by decide)⟩

/-! ### C6: circle symmetry -/

/-- One-step unfolding of the fuel-indexed circle loop. -/
theorem circleLoop_succ (cx cy : Int) (fuel : Nat) (x y err : Int) :
    circleLoop cx cy (fuel + 1) x y err =
      if x ≥ y then
        (circleLoop cx cy fuel
            (if 2 * (err + 1 + 2 * (y + 1) - x) + 1 > 0 then x - 1 else x)
            (y + 1)
            (if 2 * (err + 1 + 2 * (y + 1) - x) + 1 > 0 then
              err + 1 + 2 * (y + 1) + 1
                - 2 * (if 2 * (err + 1 + 2 * (y + 1) - x) + 1 > 0 then x - 1 else x)
            else err + 1 + 2 * (y + 1))).map
          (fun l => circleOctet cx cy x y ++ l)
      else some [] := rfl

/-- Circle-loop unfolding when the decision variable decrements `x`. -/
theorem circleLoop_succ_dec (cx cy : Int) (fuel : Nat) (x y err : Int)
    (hxy : x ≥ y) (hdec : 2 * (err + 1 + 2 * (y + 1) - x) + 1 > 0) :
    circleLoop cx cy (fuel + 1) x y err =
      (circleLoop cx cy fuel (x - 1) (y + 1)
          (err + 1 + 2 * (y + 1) + 1 - 2 * (x - 1))).map
        (fun l => circleOctet cx cy x y ++ l) := by
  rw [circleLoop_succ, if_pos hxy]
  simp only [if_pos hdec]

/-- Circle-loop unfolding when the decision variable keeps `x`. -/
theorem circleLoop_succ_nodec (cx cy : Int) (fuel : Nat) (x y err : Int)
    (hxy : x ≥ y) (hdec : ¬ (2 * (err + 1 + 2 * (y + 1) - x) + 1 > 0)) :
    circleLoop cx cy (fuel + 1) x y err =
      (circleLoop cx cy fuel x (y + 1) (err + 1 + 2 * (y + 1))).map
        (fun l => circleOctet cx cy x y ++ l) := by
  rw [circleLoop_succ, if_pos hxy]
  simp only [if_neg hdec]

theorem circleLoop_succ_stop (cx cy : Int) (fuel : Nat) (x y err : Int)
    (hxy : ¬ x ≥ y) :
    circleLoop cx cy (fuel + 1) x y err = some [] := by
  rw [circleLoop_succ, if_neg hxy]

/-- The circle loop terminates: `y` grows by one each iteration while
`x` never grows, so fuel `(x + 1 - y).toNat + 1` suffices. -/
theorem circleLoop_some (cx cy : Int) :
    ∀ (fuel : Nat) (x y err : Int), (x + 1 - y).toNat < fuel →
      ∃ l, circleLoop cx cy fuel x y err = some l := by
  intro fuel
  induction fuel with
  | zero => intro x y err hf; omega
  | succ fuel ih =>
    intro x y err hf
    by_cases hxy : x ≥ y
    · by_cases hdec : 2 * (err + 1 + 2 * (y + 1) - x) + 1 > 0
      · obtain ⟨l, hl⟩ := ih (x - 1) (y + 1)
          (err + 1 + 2 * (y + 1) + 1 - 2 * (x - 1)) (by omega)
        exact ⟨circleOctet cx cy x y ++ l, by
          rw [circleLoop_succ_dec cx cy fuel x y err hxy hdec, hl, Option.map_some']⟩
      · obtain ⟨l, hl⟩ := ih x (y + 1) (err + 1 + 2 * (y + 1)) (by omega)
        exact ⟨circleOctet cx cy x y ++ l, by
          rw [circleLoop_succ_nodec cx cy fuel x y err hxy hdec, hl, Option.map_some']⟩
    · exact ⟨[], circleLoop_succ_stop cx cy fuel x y err hxy⟩

/-- The eight-point block is closed under reflection across the vertical
axis through the centre. -/
theorem octet_reflX (cx cy x y p1 p2 : Int)
    (h : (p1, p2) ∈ circleOctet cx cy x y) :
    (2 * cx - p1, p2) ∈ circleOctet cx cy x y := by
  simp only [circleOctet, List.mem_cons, List.not_mem_nil,
    or_false, Prod.mk.injEq] at h
  obtain ⟨rfl, rfl⟩ | ⟨rfl, rfl⟩ | ⟨rfl, rfl⟩ | ⟨rfl, rfl⟩ |
    ⟨rfl, rfl⟩ | ⟨rfl, rfl⟩ | ⟨rfl, rfl⟩ | ⟨rfl, rfl⟩ := h <;>
  · simp only [circleOctet]
    ring_nf
    simp

/-- The eight-point block is closed under reflection across the
horizontal axis through the centre. -/
theorem octet_reflY (cx cy x y p1 p2 : Int)
    (h : (p1, p2) ∈ circleOctet cx cy x y) :
    (p1, 2 * cy - p2) ∈ circleOctet cx cy x y := by
  simp only [circleOctet, List.mem_cons, List.not_mem_nil,
    or_false, Prod.mk.injEq] at h
  obtain ⟨rfl, rfl⟩ | ⟨rfl, rfl⟩ | ⟨rfl, rfl⟩ | ⟨rfl, rfl⟩ |
    ⟨rfl, rfl⟩ | ⟨rfl, rfl⟩ | ⟨rfl, rfl⟩ | ⟨rfl, rfl⟩ := h <;>
  · simp only [circleOctet]
    ring_nf
    simp

/-- Every plotted circle cell has its mirror images across the vertical
and horizontal axes through the centre among the plotted cells. -/
theorem circleLoop_mem_refl (cx cy : Int) :
    ∀ (fuel : Nat) (x y err : Int) (l : List (Int × Int)),
      circleLoop cx cy fuel x y err = some l →
      ∀ p1 p2, (p1, p2) ∈ l →
        (2 * cx - p1, p2) ∈ l ∧ (p1, 2 * cy - p2) ∈ l := by
  intro fuel
  induction fuel with
  | zero =>
    intro x y err l hl
    simp [circleLoop] at hl
  | succ fuel ih =>
    intro x y err l hl p1 p2 hp
    by_cases hxy : x ≥ y
    · by_cases hdec : 2 * (err + 1 + 2 * (y + 1) - x) + 1 > 0
      · rw [circleLoop_succ_dec cx cy fuel x y err hxy hdec] at hl
        obtain ⟨l', hl', rfl⟩ := Option.map_eq_some'.mp hl
        rcases List.mem_append.mp hp with hoct | hrest
        · exact ⟨List.mem_append_left _ (octet_reflX cx cy x y p1 p2 hoct),
            List.mem_append_left _ (octet_reflY cx cy x y p1 p2 hoct)⟩
        · have hih := ih _ _ _ l' hl' p1 p2 hrest
          exact ⟨List.mem_append_right _ hih.1, List.mem_append_right _ hih.2⟩
      · rw [circleLoop_succ_nodec cx cy fuel x y err hxy hdec] at hl
        obtain ⟨l', hl', rfl⟩ := Option.map_eq_some'.mp hl
        rcases List.mem_append.mp hp with hoct | hrest
        · exact ⟨List.mem_append_left _ (octet_reflX cx cy x y p1 p2 hoct),
            List.mem_append_left _ (octet_reflY cx cy x y p1 p2 hoct)⟩
        · have hih := ih _ _ _ l' hl' p1 p2 hrest
          exact ⟨List.mem_append_right _ hih.1, List.mem_append_right _ hih.2⟩
    · rw [circleLoop_succ_stop cx cy fuel x y err hxy] at hl
      cases hl
      simp at hp

/-- C6: for every radius ≥ 0 the set of cells written by `draw_circle` is
closed under reflection across the vertical and horizontal axes through
the centre, and for radius 0 the plotted cells are exactly the single
point `(cx, cy)`. -/
theorem circle_symmetry (cx cy r u v q1 q2 : Int) (hr : 0 ≤ r) :
    ((cx + u, cy + v) ∈ circleCells cx cy r →
      (cx - u, cy + v) ∈ circleCells cx cy r) ∧
    ((cx + u, cy + v) ∈ circleCells cx cy r →
      (cx + u, cy - v) ∈ circleCells cx cy r) ∧
    ((q1, q2) ∈ circleCells cx cy 0 ↔ (q1, q2) = (cx, cy)) := by
  obtain ⟨l, hl⟩ := circleLoop_some cx cy ((r + 1).toNat + 1) r 0 0 (by omega)
  have hc : circleCells cx cy r = l := by
    unfold circleCells
    rw [hl]
    rfl
  refine ⟨?_, ?_, ?_⟩
  · intro h
    rw [hc] at h ⊢
    have hm := (circleLoop_mem_refl cx cy _ r 0 0 l hl (cx + u) (cy + v) h).1
    rwa [show 2 * cx - (cx + u) = cx - u by ring] at hm
  · intro h
    rw [hc] at h ⊢
    have hm := (circleLoop_mem_refl cx cy _ r 0 0 l hl (cx + u) (cy + v) h).2
    rwa [show 2 * cy - (cy + v) = cy - v by ring] at hm
  · rw [circleCells_zero]
    simp [List.mem_replicate]

/-- Witness for C6 at centre `(0,0)`, radius 2, offset `(2,0)`. -/
theorem circle_symmetry_witness :
    (0 : Int) ≤ 2 ∧
    ((((0 : Int) + 2, (0 : Int) + 0) ∈ circleCells 0 0 2 →
        ((0 : Int) - 2, (0 : Int) + 0) ∈ circleCells 0 0 2) ∧
      (((0 : Int) + 2, (0 : Int) + 0) ∈ circleCells 0 0 2 →
        ((0 : Int) + 2, (0 : Int) - 0) ∈ circleCells 0 0 2) ∧
      (((0 : Int), (0 : Int)) ∈ circleCells 0 0 0 ↔
        ((0 : Int), (0 : Int)) = (0, 0))) :=
  ⟨by decide, circle_symmetry 0 0 2 2 0 0 0 (by decide)⟩

/-! ### C5: Bresenham termination and endpoint coverage -/

/-- One-step unfolding of the fuel-indexed Bresenham loop. -/
theorem lineLoop_succ (x2 y2 dx dy sx sy : Int) (fuel : Nat) (x1 y1 err : Int) :
    lineLoop x2 y2 dx dy sx sy (fuel + 1) x1 y1 err =
      if x1 = x2 ∧ y1 = y2 then some [(x1, y1)]
      else
        (lineLoop x2 y2 dx dy sx sy fuel
            (if 2 * err > -dy then x1 + sx else x1)
            (if 2 * err < dx then y1 + sy else y1)
            (if 2 * err < dx then (if 2 * err > -dy then err - dy else err) + dx
             else (if 2 * err > -dy then err - dy else err))).map
          (fun l => (x1, y1) :: l) := rfl

theorem lineLoop_succ_end (x2 y2 dx dy sx sy : Int) (fuel : Nat) (x1 y1 err : Int)
    (hend : x1 = x2 ∧ y1 = y2) :
    lineLoop x2 y2 dx dy sx sy (fuel + 1) x1 y1 err = some [(x1, y1)] := by
  rw [lineLoop_succ, if_pos hend]

theorem lineLoop_succ_xy (x2 y2 dx dy sx sy : Int) (fuel : Nat) (x1 y1 err : Int)
    (hne : ¬(x1 = x2 ∧ y1 = y2)) (h1 : 2 * err > -dy) (h2 : 2 * err < dx) :
    lineLoop x2 y2 dx dy sx sy (fuel + 1) x1 y1 err =
      (lineLoop x2 y2 dx dy sx sy fuel (x1 + sx) (y1 + sy) (err - dy + dx)).map
        (fun l => (x1, y1) :: l) := by
  rw [lineLoop_succ, if_neg hne]
  simp only [if_pos h1, if_pos h2]

theorem lineLoop_succ_x (x2 y2 dx dy sx sy : Int) (fuel : Nat) (x1 y1 err : Int)
    (hne : ¬(x1 = x2 ∧ y1 = y2)) (h1 : 2 * err > -dy) (h2 : ¬(2 * err < dx)) :
    lineLoop x2 y2 dx dy sx sy (fuel + 1) x1 y1 err =
      (lineLoop x2 y2 dx dy sx sy fuel (x1 + sx) y1 (err - dy)).map
        (fun l => (x1, y1) :: l) := by
  rw [lineLoop_succ, if_neg hne]
  simp only [if_pos h1, if_neg h2]

theorem lineLoop_succ_y (x2 y2 dx dy sx sy : Int) (fuel : Nat) (x1 y1 err : Int)
    (hne : ¬(x1 = x2 ∧ y1 = y2)) (h1 : ¬(2 * err > -dy)) (h2 : 2 * err < dx) :
    lineLoop x2 y2 dx dy sx sy (fuel + 1) x1 y1 err =
      (lineLoop x2 y2 dx dy sx sy fuel x1 (y1 + sy) (err + dx)).map
        (fun l => (x1, y1) :: l) := by
  rw [lineLoop_succ, if_neg hne]
  simp only [if_neg h1, if_pos h2]

/-- Main Bresenham invariant.  Writing `a = sx*(x2 - x1)` and
`b = sy*(y2 - y1)` for the signed remaining distances, the loop
maintains `0 ≤ a ≤ dx`, `0 ≤ b ≤ dy` and
`err = dx - dy + dy*a - dx*b`; each iteration decreases `a + b`, never
overshoots, and the loop reaches `(x2, y2)` before fuel `a + b + 1` runs
out, having plotted `(x1, y1)` first and `(x2, y2)` last. -/
theorem lineLoop_some (x2 y2 dx dy sx sy : Int)
    (hsx : sx = 1 ∨ sx = -1) (hsy : sy = 1 ∨ sy = -1)
    (hdx : 0 ≤ dx) (hdy : 0 ≤ dy) :
    ∀ (fuel : Nat) (x1 y1 err : Int),
      0 ≤ sx * (x2 - x1) → sx * (x2 - x1) ≤ dx →
      0 ≤ sy * (y2 - y1) → sy * (y2 - y1) ≤ dy →
      err = dx - dy + dy * (sx * (x2 - x1)) - dx * (sy * (y2 - y1)) →
      sx * (x2 - x1) + sy * (y2 - y1) < (fuel : Int) →
      ∃ l, lineLoop x2 y2 dx dy sx sy fuel x1 y1 err = some l ∧
        l.head? = some (x1, y1) ∧ (x2, y2) ∈ l := by
  intro fuel
  induction fuel with
  | zero =>
    intro x1 y1 err ha0 _ hb0 _ _ hfuel
    exfalso
    have : ((0 : Nat) : Int) = 0 := rfl
    linarith
  | succ fuel ih =>
    intro x1 y1 err ha0 ha1 hb0 hb1 herr hfuel
    by_cases hend : x1 = x2 ∧ y1 = y2
    · refine ⟨[(x1, y1)], lineLoop_succ_end _ _ _ _ _ _ _ _ _ _ hend, rfl, ?_⟩
      rw [hend.1, hend.2]
      exact List.mem_singleton_self _
    · have hsxne : sx ≠ 0 := by rcases hsx with h | h <;> omega
      have hsyne : sy ≠ 0 := by rcases hsy with h | h <;> omega
      have hsx2 : sx * sx = 1 := by rcases hsx with h | h <;> rw [h] <;> norm_num
      have hsy2 : sy * sy = 1 := by rcases hsy with h | h <;> rw [h] <;> norm_num
      have hxiff : x1 = x2 ↔ sx * (x2 - x1) = 0 := by
        constructor
        · intro h; rw [h]; ring
        · intro h
          rcases mul_eq_zero.mp h with h | h
          · exact absurd h hsxne
          · omega
      have hyiff : y1 = y2 ↔ sy * (y2 - y1) = 0 := by
        constructor
        · intro h; rw [h]; ring
        · intro h
          rcases mul_eq_zero.mp h with h | h
          · exact absurd h hsyne
          · omega
      have hor : 1 ≤ sx * (x2 - x1) ∨ 1 ≤ sy * (y2 - y1) := by
        by_contra hcon
        push_neg at hcon
        exact hend ⟨hxiff.mpr (by linarith), hyiff.mpr (by linarith)⟩
      have hstepa : sx * (x2 - (x1 + sx)) = sx * (x2 - x1) - 1 := by
        have : sx * (x2 - (x1 + sx)) = sx * (x2 - x1) - sx * sx := by ring
        rw [this, hsx2]
      have hstepb : sy * (y2 - (y1 + sy)) = sy * (y2 - y1) - 1 := by
        have : sy * (y2 - (y1 + sy)) = sy * (y2 - y1) - sy * sy := by ring
        rw [this, hsy2]
      have hfuel' : sx * (x2 - x1) + sy * (y2 - y1) ≤ (fuel : Int) := by
        have : ((fuel + 1 : Nat) : Int) = (fuel : Int) + 1 := by push_cast; ring
        linarith [hfuel, this.symm.le]
      by_cases h1 : 2 * err > -dy
      · have hxlt : 1 ≤ sx * (x2 - x1) := by
          by_contra hcon
          push_neg at hcon
          have ha00 : sx * (x2 - x1) = 0 := by linarith
          have hb1' : 1 ≤ sy * (y2 - y1) := by
            rcases hor with h | h
            · linarith
            · exact h
          have hdxb : dx * 1 ≤ dx * (sy * (y2 - y1)) :=
            mul_le_mul_of_nonneg_left hb1' hdx
          rw [herr, ha00] at h1
          linarith
        by_cases h2 : 2 * err < dx
        · have hylt : 1 ≤ sy * (y2 - y1) := by
            by_contra hcon
            push_neg at hcon
            have hb00 : sy * (y2 - y1) = 0 := by linarith
            have hdya : dy * 1 ≤ dy * (sx * (x2 - x1)) :=
              mul_le_mul_of_nonneg_left hxlt hdy
            rw [herr, hb00] at h2
            linarith
          obtain ⟨l, hl, hhead, hmem⟩ := ih (x1 + sx) (y1 + sy) (err - dy + dx)
            (by rw [hstepa]; linarith) (by rw [hstepa]; linarith)
            (by rw [hstepb]; linarith) (by rw [hstepb]; linarith)
            (by rw [hstepa, hstepb]; linear_combination herr)
            (by rw [hstepa, hstepb]; linarith)
          refine ⟨(x1, y1) :: l, ?_, rfl, List.mem_cons_of_mem _ hmem⟩
          rw [lineLoop_succ_xy x2 y2 dx dy sx sy fuel x1 y1 err hend h1 h2, hl,
            Option.map_some']
        · obtain ⟨l, hl, hhead, hmem⟩ := ih (x1 + sx) y1 (err - dy)
            (by rw [hstepa]; linarith) (by rw [hstepa]; linarith)
            hb0 hb1
            (by rw [hstepa]; linear_combination herr)
            (by rw [hstepa]; linarith)
          refine ⟨(x1, y1) :: l, ?_, rfl, List.mem_cons_of_mem _ hmem⟩
          rw [lineLoop_succ_x x2 y2 dx dy sx sy fuel x1 y1 err hend h1 h2, hl,
            Option.map_some']
      · by_cases h2 : 2 * err < dx
        · have hylt : 1 ≤ sy * (y2 - y1) := by
            by_contra hcon
            push_neg at hcon
            have hb00 : sy * (y2 - y1) = 0 := by linarith
            have hxlt : 1 ≤ sx * (x2 - x1) := by
              rcases hor with h | h
              · exact h
              · linarith
            have hdya : dy * 1 ≤ dy * (sx * (x2 - x1)) :=
              mul_le_mul_of_nonneg_left hxlt hdy
            rw [herr, hb00] at h2
            linarith
          obtain ⟨l, hl, hhead, hmem⟩ := ih x1 (y1 + sy) (err + dx)
            ha0 ha1
            (by rw [hstepb]; linarith) (by rw [hstepb]; linarith)
            (by rw [hstepb]; linear_combination herr)
            (by rw [hstepb]; linarith)
          refine ⟨(x1, y1) :: l, ?_, rfl, List.mem_cons_of_mem _ hmem⟩
          rw [lineLoop_succ_y x2 y2 dx dy sx sy fuel x1 y1 err hend h1 h2, hl,
            Option.map_some']
        · exfalso
          push_neg at h1 h2
          have hdx0 : dx = 0 := by linarith
          have hdy0 : dy = 0 := by linarith
          rw [hdx0, hdy0] at herr
          rw [hdx0] at ha1
          rw [hdy0] at hb1
          simp at herr
          exact hend ⟨hxiff.mpr (le_antisymm ha1 ha0),
            hyiff.mpr (le_antisymm hb1 hb0)⟩

/-- The Bresenham set-up establishes the invariant, so the loop with
fuel `dx + dy + 1` reaches the endpoint. -/
theorem lineRun_terminates (x1 y1 x2 y2 : Int) :
    ∃ l, lineRun x1 y1 x2 y2 ((|x2 - x1| + |y2 - y1|).toNat + 1) = some l ∧
      l.head? = some (x1, y1) ∧ (x2, y2) ∈ l := by
  unfold lineRun
  have habs : (((|x2 - x1| + |y2 - y1|).toNat + 1 : Nat) : Int)
      = |x2 - x1| + |y2 - y1| + 1 := by
    push_cast [Int.toNat_of_nonneg (by positivity : (0 : Int) ≤ |x2 - x1| + |y2 - y1|)]
    ring
  have hsx : (if x1 < x2 then (1 : Int) else -1) = 1 ∨
      (if x1 < x2 then (1 : Int) else -1) = -1 := by
    split
    · exact Or.inl rfl
    · exact Or.inr rfl
  have hsy : (if y1 < y2 then (1 : Int) else -1) = 1 ∨
      (if y1 < y2 then (1 : Int) else -1) = -1 := by
    split
    · exact Or.inl rfl
    · exact Or.inr rfl
  have hax : (if x1 < x2 then (1 : Int) else -1) * (x2 - x1) = |x2 - x1| := by
    split
    · next h => rw [abs_of_nonneg (by omega : (0 : Int) ≤ x2 - x1)]; ring
    · next h => rw [abs_of_nonpos (by omega : x2 - x1 ≤ 0)]; ring
  have hay : (if y1 < y2 then (1 : Int) else -1) * (y2 - y1) = |y2 - y1| := by
    split
    · next h => rw [abs_of_nonneg (by omega : (0 : Int) ≤ y2 - y1)]; ring
    · next h => rw [abs_of_nonpos (by omega : y2 - y1 ≤ 0)]; ring
  exact lineLoop_some x2 y2 |x2 - x1| |y2 - y1| _ _ hsx hsy (abs_nonneg _)
    (abs_nonneg _) _ x1 y1 _
    (by rw [hax]; exact abs_nonneg _) (by rw [hax])
    (by rw [hay]; exact abs_nonneg _) (by rw [hay])
    (by rw [hax, hay]; ring)
    (by rw [hax, hay, habs]; linarith [abs_nonneg (x2 - x1), abs_nonneg (y2 - y1)])

/-- C5: `draw_line` terminates for all endpoints — fuel `dx + dy + 1` is
enough for the loop to hit its `break` — and the plotted cells start at
`(x1, y1)` and contain `(x2, y2)`; a degenerate single-point segment
plots exactly its one point. -/
theorem draw_line_terminates (x1 y1 x2 y2 : Int) :
    (∃ l, lineRun x1 y1 x2 y2 ((|x2 - x1| + |y2 - y1|).toNat + 1) = some l ∧
      lineCells x1 y1 x2 y2 = l) ∧
    (x1, y1) ∈ lineCells x1 y1 x2 y2 ∧
    (x2, y2) ∈ lineCells x1 y1 x2 y2 ∧
    ((x1, y1) = (x2, y2) → lineCells x1 y1 x2 y2 = [(x1, y1)]) := by
  obtain ⟨l, hl, hhead, hmem⟩ := lineRun_terminates x1 y1 x2 y2
  have hcells : lineCells x1 y1 x2 y2 = l := by
    unfold lineCells
    rw [hl]
    rfl
  refine ⟨⟨l, hl, hcells⟩, ?_, by rw [hcells]; exact hmem, ?_⟩
  · rw [hcells]
    cases l with
    | nil => simp at hhead
    | cons p t =>
      simp only [List.head?_cons, Option.some.injEq] at hhead
      rw [hhead]
      exact List.mem_cons_self _ _
  · intro h
    obtain ⟨hx, hy⟩ := Prod.mk.injEq _ _ _ _ ▸ h
    subst hx
    subst hy
    exact lineCells_self x1 y1

/-! ### C4 (amended): axis-aligned segments are direction-symmetric -/

/-- Reversing `map f (range (n+1))` is mapping `f (n - ·)`. -/
theorem mapRangeRev {α : Type} (n : ℕ) (f : ℕ → α) :
    ((List.range (n + 1)).map f).reverse
      = (List.range (n + 1)).map (fun k => f (n - k)) := by
  induction n with
  | zero => rfl
  | succ n ih =>
    have h1 : (List.range (n + 1 + 1)).map f
        = (List.range (n + 1)).map f ++ [f (n + 1)] := by
      rw [List.range_succ, List.map_append, List.map_singleton]
    have h2 : (List.range (n + 1 + 1)).map (fun k => f (n + 1 - k))
        = f (n + 1) :: (List.range (n + 1)).map (fun k => f (n - k)) := by
      rw [List.range_succ_eq_map, List.map_cons, List.map_map]
      refine congrArg₂ List.cons ?_ ?_
      · show f (n + 1 - 0) = f (n + 1)
        congr 1
      · apply List.map_congr_left
        intro k hk
        simp only [Function.comp_apply]
        congr 1
        omega
    rw [h1, h2, List.reverse_append, ih]
    simp

/-- Horizontal Bresenham walk: with `dy = 0` the error stays `dx`, only
`x` steps, and the cells are the column interval from `x1` to `x2`. -/
theorem lineLoop_horiz (x2 y sx dx : Int) (hdx : 0 < dx) (hsx2 : sx * sx = 1) :
    ∀ (n : Nat), ∀ (x1 : Int), sx * (x2 - x1) = (n : Int) →
      ∀ (fuel : Nat), n < fuel →
        lineLoop x2 y dx 0 sx (-1) fuel x1 y dx =
          some ((List.range (n + 1)).map fun k : Nat => (x1 + sx * (k : Int), y)) := by
  intro n
  induction n with
  | zero =>
    intro x1 h0 fuel hfuel
    have hsxne : sx ≠ 0 := fun h => by rw [h] at hsx2; norm_num at hsx2
    have hx : x1 = x2 := by
      rw [Nat.cast_zero] at h0
      rcases mul_eq_zero.mp h0 with h | h
      · exact absurd h hsxne
      · omega
    cases fuel with
    | zero => omega
    | succ fuel =>
      rw [lineLoop_succ_end _ _ _ _ _ _ _ _ _ _ ⟨hx, rfl⟩]
      congr 1
      simp [List.range_succ]
  | succ n ih =>
    intro x1 hn fuel hfuel
    cases fuel with
    | zero => omega
    | succ fuel =>
      have hne : ¬(x1 = x2 ∧ y = y) := by
        rintro ⟨hcon, -⟩
        rw [hcon, sub_self, mul_zero] at hn
        have : ((n + 1 : Nat) : Int) = (n : Int) + 1 := by push_cast; ring
        omega
      have h1 : 2 * dx > -(0 : Int) := by omega
      have h2 : ¬(2 * dx < dx) := by omega
      rw [lineLoop_succ_x x2 y dx 0 sx (-1) fuel x1 y dx hne h1 h2,
        show dx - (0 : Int) = dx by ring]
      have hstep : sx * (x2 - (x1 + sx)) = (n : Int) := by
        have h' : sx * (x2 - (x1 + sx)) = sx * (x2 - x1) - sx * sx := by ring
        rw [h', hsx2, hn]
        push_cast
        ring
      rw [ih (x1 + sx) hstep fuel (by omega), Option.map_some']
      congr 1
      conv_rhs => rw [List.range_succ_eq_map]
      rw [List.map_cons, List.map_map]
      congr 1
      · simp
      · apply List.map_congr_left
        intro k hk
        simp only [Function.comp_apply, Prod.mk.injEq]
        refine ⟨?_, trivial⟩
        push_cast
        ring

/-- Vertical Bresenham walk: with `dx = 0` the error stays `-dy`, only
`y` steps, and the cells are the row interval from `y1` to `y2`. -/
theorem lineLoop_vert (x y2 sy dy : Int) (hdy : 0 < dy) (hsy2 : sy * sy = 1) :
    ∀ (n : Nat), ∀ (y1 : Int), sy * (y2 - y1) = (n : Int) →
      ∀ (fuel : Nat), n < fuel →
        lineLoop x y2 0 dy (-1) sy fuel x y1 (-dy) =
          some ((List.range (n + 1)).map fun k : Nat => (x, y1 + sy * (k : Int))) := by
  intro n
  induction n with
  | zero =>
    intro y1 h0 fuel hfuel
    have hsyne : sy ≠ 0 := fun h => by rw [h] at hsy2; norm_num at hsy2
    have hy : y1 = y2 := by
      rw [Nat.cast_zero] at h0
      rcases mul_eq_zero.mp h0 with h | h
      · exact absurd h hsyne
      · omega
    cases fuel with
    | zero => omega
    | succ fuel =>
      rw [lineLoop_succ_end _ _ _ _ _ _ _ _ _ _ ⟨rfl, hy⟩]
      congr 1
      simp [List.range_succ]
  | succ n ih =>
    intro y1 hn fuel hfuel
    cases fuel with
    | zero => omega
    | succ fuel =>
      have hne : ¬(x = x ∧ y1 = y2) := by
        rintro ⟨-, hcon⟩
        rw [hcon, sub_self, mul_zero] at hn
        have : ((n + 1 : Nat) : Int) = (n : Int) + 1 := by push_cast; ring
        omega
      have h1 : ¬(2 * (-dy) > -dy) := by omega
      have h2 : 2 * (-dy) < (0 : Int) := by omega
      rw [lineLoop_succ_y x y2 0 dy (-1) sy fuel x y1 (-dy) hne h1 h2,
        show -dy + (0 : Int) = -dy by ring]
      have hstep : sy * (y2 - (y1 + sy)) = (n : Int) := by
        have h' : sy * (y2 - (y1 + sy)) = sy * (y2 - y1) - sy * sy := by ring
        rw [h', hsy2, hn]
        push_cast
        ring
      rw [ih (y1 + sy) hstep fuel (by omega), Option.map_some']
      congr 1
      conv_rhs => rw [List.range_succ_eq_map]
      rw [List.map_cons, List.map_map]
      congr 1
      · simp
      · apply List.map_congr_left
        intro k hk
        simp only [Function.comp_apply, Prod.mk.injEq]
        refine ⟨trivial, ?_⟩
        push_cast
        ring

/-- Cells of a horizontal segment: the column interval from `x1` to
`x2`, traversed in step direction `sx`. -/
theorem lineCells_horiz_char (x1 x2 y : Int) :
    lineCells x1 y x2 y =
      (List.range ((x2 - x1).natAbs + 1)).map
        (fun k : Nat => (x1 + (if x1 < x2 then 1 else -1) * (k : Int), y)) := by
  by_cases hx : x1 = x2
  · subst hx
    rw [lineCells_self]
    simp [List.range_succ]
  · have hrun : lineRun x1 y x2 y ((|x2 - x1| + |y - y|).toNat + 1) =
        lineLoop x2 y |x2 - x1| |y - y| (if x1 < x2 then 1 else -1)
          (if y < y then 1 else -1)
          ((|x2 - x1| + |y - y|).toNat + 1) x1 y (|x2 - x1| - |y - y|) := rfl
    have hy0 : |y - y| = (0 : Int) := by simp
    have hsx2 : (if x1 < x2 then (1 : Int) else -1) * (if x1 < x2 then (1 : Int) else -1)
        = 1 := by split <;> norm_num
    have hax : (if x1 < x2 then (1 : Int) else -1) * (x2 - x1) = |x2 - x1| := by
      split
      · next h => rw [abs_of_nonneg (by omega : (0 : Int) ≤ x2 - x1)]; ring
      · next h => rw [abs_of_nonpos (by omega : x2 - x1 ≤ 0)]; ring
    have habs : |x2 - x1| = ((x2 - x1).natAbs : Int) := Int.abs_eq_natAbs _
    have hdx : (0 : Int) < |x2 - x1| := by
      rw [abs_pos]
      omega
    have hfuel : (x2 - x1).natAbs < (|x2 - x1| + |y - y|).toNat + 1 := by
      rw [hy0]
      omega
    unfold lineCells
    rw [hrun, hy0, sub_zero, if_neg (lt_irrefl y), habs]
    rw [lineLoop_horiz x2 y (if x1 < x2 then 1 else -1) ((x2 - x1).natAbs : Int)
        (by rw [habs] at hdx; exact hdx) hsx2
        (x2 - x1).natAbs x1 (by rw [hax]; exact habs) _ (by omega)]
    rfl

/-- Cells of a vertical segment: the row interval from `y1` to `y2`,
traversed in step direction `sy`. -/
theorem lineCells_vert_char (x y1 y2 : Int) :
    lineCells x y1 x y2 =
      (List.range ((y2 - y1).natAbs + 1)).map
        (fun k : Nat => (x, y1 + (if y1 < y2 then 1 else -1) * (k : Int))) := by
  by_cases hy : y1 = y2
  · subst hy
    rw [lineCells_self]
    simp [List.range_succ]
  · have hrun : lineRun x y1 x y2 ((|x - x| + |y2 - y1|).toNat + 1) =
        lineLoop x y2 |x - x| |y2 - y1| (if x < x then 1 else -1)
          (if y1 < y2 then 1 else -1)
          ((|x - x| + |y2 - y1|).toNat + 1) x y1 (|x - x| - |y2 - y1|) := rfl
    have hx0 : |x - x| = (0 : Int) := by simp
    have hsy2 : (if y1 < y2 then (1 : Int) else -1) * (if y1 < y2 then (1 : Int) else -1)
        = 1 := by split <;> norm_num
    have hay : (if y1 < y2 then (1 : Int) else -1) * (y2 - y1) = |y2 - y1| := by
      split
      · next h => rw [abs_of_nonneg (by omega : (0 : Int) ≤ y2 - y1)]; ring
      · next h => rw [abs_of_nonpos (by omega : y2 - y1 ≤ 0)]; ring
    have habs : |y2 - y1| = ((y2 - y1).natAbs : Int) := Int.abs_eq_natAbs _
    have hdy : (0 : Int) < |y2 - y1| := by
      rw [abs_pos]
      omega
    have hfuel : (y2 - y1).natAbs < (|x - x| + |y2 - y1|).toNat + 1 := by
      rw [hx0]
      omega
    unfold lineCells
    rw [hrun, hx0, zero_sub, if_neg (lt_irrefl x), habs]
    rw [lineLoop_vert x y2 (if y1 < y2 then 1 else -1) ((y2 - y1).natAbs : Int)
        (by rw [habs] at hdy; exact hdy) hsy2
        (y2 - y1).natAbs y1 (by rw [hay]; exact habs) _ (by omega)]
    rfl

/-- Two guarded single-cell writes of the same character commute at the
buffer level. -/
theorem bufWrite_comm (B : List (List Char)) (n m i j : ℕ) (c : Char) :
    (B.set n ((B.getD n []).set i c)).set m
        (((B.set n ((B.getD n []).set i c)).getD m []).set j c)
      = (B.set m ((B.getD m []).set j c)).set n
          (((B.set m ((B.getD m []).set j c)).getD n []).set i c) := by
  by_cases hnm : n = m
  · subst hnm
    by_cases hlen : n < B.length
    · have h1 : (B.set n ((B.getD n []).set i c)).getD n [] = (B.getD n []).set i c := by
        rw [List.getD_eq_getElem?_getD, List.getElem?_set_self hlen, Option.getD_some]
      have h2 : (B.set n ((B.getD n []).set j c)).getD n [] = (B.getD n []).set j c := by
        rw [List.getD_eq_getElem?_getD, List.getElem?_set_self hlen, Option.getD_some]
      rw [h1, h2, List.set_set, List.set_set]
      congr 1
      by_cases hij : i = j
      · subst hij
        rfl
      · rw [List.set_comm _ _ _ hij]
    · push_neg at hlen
      simp only [List.set_eq_of_length_le hlen]
  · have hget1 : (B.set n ((B.getD n []).set i c)).getD m [] = B.getD m [] := by
      rw [List.getD_eq_getElem?_getD, List.getElem?_set_ne hnm,
        ← List.getD_eq_getElem?_getD]
    have hget2 : (B.set m ((B.getD m []).set j c)).getD n [] = B.getD n [] := by
      rw [List.getD_eq_getElem?_getD, List.getElem?_set_ne (Ne.symm hnm),
        ← List.getD_eq_getElem?_getD]
    rw [hget1, hget2, List.set_comm _ _ _ hnm]

/-- Writes of the same character at any two cells commute. -/
theorem Screen.set_pixel_comm (s : Screen) (a b u v : Int) (c : Char) :
    (s.set_pixel a b c).set_pixel u v c = (s.set_pixel u v c).set_pixel a b c := by
  by_cases hab : s.inBounds a b
  · by_cases huv : s.inBounds u v
    · unfold Screen.set_pixel
      rw [if_pos hab, if_pos huv]
      split
      · split
        · simp only [Screen.mk.injEq, true_and]
          exact bufWrite_comm s.buffer b.toNat v.toNat a.toNat u.toNat c
        · next hcon => exact absurd hab hcon
      · next hcon => exact absurd huv hcon
    · rw [Screen.set_pixel_of_not_inBounds s u v c huv,
        Screen.set_pixel_of_not_inBounds _ u v c
          (fun hc => huv ((s.set_pixel_inBounds_iff a b u v c).mp hc))]
  · rw [Screen.set_pixel_of_not_inBounds s a b c hab,
      Screen.set_pixel_of_not_inBounds _ a b c
        (fun hc => hab ((s.set_pixel_inBounds_iff u v a b c).mp hc))]

/-- Folding same-character writes over a list of cells is invariant
under permutation of the cells. -/
theorem foldl_set_pixel_perm (c : Char) {l1 l2 : List (Int × Int)}
    (hp : List.Perm l1 l2) :
    ∀ s : Screen, l1.foldl (fun t p => t.set_pixel p.1 p.2 c) s
      = l2.foldl (fun t p => t.set_pixel p.1 p.2 c) s := by
  induction hp with
  | nil => intro s; rfl
  | cons x _ ih =>
    intro s
    simp only [List.foldl_cons]
    exact ih _
  | swap x y l =>
    intro s
    simp only [List.foldl_cons]
    rw [Screen.set_pixel_comm]
  | trans _ _ ih1 ih2 =>
    intro s
    rw [ih1, ih2]

/-- An axis-aligned walk in the opposite direction is the reverse of the
forward walk. -/
theorem lineCells_axis_reverse (x1 y1 x2 y2 : Int) (haxis : x1 = x2 ∨ y1 = y2) :
    lineCells x2 y2 x1 y1 = (lineCells x1 y1 x2 y2).reverse := by
  rcases haxis with hx | hy
  · subst hx
    rw [lineCells_vert_char x1 y2 y1, lineCells_vert_char x1 y1 y2]
    rw [show (y1 - y2).natAbs = (y2 - y1).natAbs by omega, mapRangeRev]
    apply List.map_congr_left
    intro k hk
    have hk' : k ≤ (y2 - y1).natAbs := by
      have := List.mem_range.mp hk
      omega
    refine congrArg₂ Prod.mk rfl ?_
    rcases lt_trichotomy y1 y2 with h | h | h
    · rw [if_neg (by omega : ¬ y2 < y1), if_pos h]
      omega
    · subst h
      rw [if_neg (lt_irrefl y1)]
      omega
    · rw [if_pos h, if_neg (by omega : ¬ y1 < y2)]
      omega
  · subst hy
    rw [lineCells_horiz_char x2 x1 y1, lineCells_horiz_char x1 x2 y1]
    rw [show (x1 - x2).natAbs = (x2 - x1).natAbs by omega, mapRangeRev]
    apply List.map_congr_left
    intro k hk
    have hk' : k ≤ (x2 - x1).natAbs := by
      have := List.mem_range.mp hk
      omega
    refine congrArg₂ Prod.mk ?_ rfl
    rcases lt_trichotomy x1 x2 with h | h | h
    · rw [if_neg (by omega : ¬ x2 < x1), if_pos h]
      omega
    · subst h
      rw [if_neg (lt_irrefl x1)]
      omega
    · rw [if_pos h, if_neg (by omega : ¬ x1 < x2)]
      omega

/-- C4 amended: for axis-aligned (and degenerate) segments the two
rasterization directions cover the same cells — the reverse walk plots
the reversed cell list — and leave equal buffers in identical states;
for oblique segments the two directions may differ
(`draw_line_not_symmetric`). -/
theorem draw_line_symmetric_axis (s : Screen) (x1 y1 x2 y2 : Int) (c : Char)
    (haxis : x1 = x2 ∨ y1 = y2) :
    lineCells x2 y2 x1 y1 = (lineCells x1 y1 x2 y2).reverse ∧
    (∀ p, p ∈ lineCells x1 y1 x2 y2 ↔ p ∈ lineCells x2 y2 x1 y1) ∧
    draw_line s x1 y1 x2 y2 c = draw_line s x2 y2 x1 y1 c := by
  have hrev := lineCells_axis_reverse x1 y1 x2 y2 haxis
  refine ⟨hrev, ?_, ?_⟩
  · intro p
    rw [hrev, List.mem_reverse]
  · unfold draw_line
    rw [hrev]
    exact (foldl_set_pixel_perm c (List.reverse_perm _) s).symm

/-- Witness for C4 (amended) on a horizontal segment of a 3×2 screen. -/
theorem draw_line_symmetric_axis_witness :
    ((0 : Int) = 2 ∨ (1 : Int) = 1) ∧
    (lineCells 2 1 0 1 = (lineCells 0 1 2 1).reverse ∧
      (∀ p, p ∈ lineCells 0 1 2 1 ↔ p ∈ lineCells 2 1 0 1) ∧
      draw_line (Screen.init 3 2) 0 1 2 1 '*' = draw_line (Screen.init 3 2) 2 1 0 1 '*') :=
  ⟨Or.inr rfl, draw_line_symmetric_axis (Screen.init 3 2) 0 1 2 1 '*' (Or.inr rfl)⟩

/-- Witness for C3 (amended) at `w = 3`, `h = 2`. -/
theorem init_spec_witness :
    (0 : Int) < 3 ∧ (0 : Int) < 2 ∧
    ((Screen.init 3 2).width = 3 ∧ (Screen.init 3 2).height = 2 ∧
      (Screen.init 3 2).buffer
          = List.replicate (2 : Int).toNat (List.replicate (3 : Int).toNat ' ') ∧
      (Screen.init 3 2).WF ∧
      (∀ row ∈ (Screen.init 3 2).buffer, ∀ c ∈ row, c = ' ')) :=
  ⟨by decide, by decide, init_spec 3 2 (by decide) (by decide)⟩

end SandboxAscii
